import Mathlib

/-!
Verification of the release-tool repository: a shallow embedding of its
version-resolution, release-publishing and artifact-packaging logic.

Go strings are modelled as `List Char`; raw file contents (Go byte slices)
are modelled as `List Nat`.  Each definition carries a comment naming the
source function or code region it embeds.
-/

set_option linter.unusedVariables false

namespace ReleaseTool

/-! ## Go string primitives (strings package, modelled at the §6 interface boundary) -/

/-- Models Go `unicode.IsSpace` on the ASCII range (the only characters the
tool ever feeds it: git output uses spaces, tabs and newlines). -/
def goIsSpace (c : Char) : Bool :=
  c = ' ' || c = '\t' || c = '\n' || c = '\x0b' || c = '\x0c' || c = '\r'

/-- Models Go `strings.TrimSpace`: drop leading and trailing whitespace. -/
def trimSpace (l : List Char) : List Char :=
  ((l.dropWhile goIsSpace).reverse.dropWhile goIsSpace).reverse

/-- Models Go `strings.TrimPrefix`: drop `pre` from the front when present. -/
def goTrimLeading (pre l : List Char) : List Char :=
  if pre.isPrefixOf l then l.drop pre.length else l

/-- Models Go `strings.TrimSuffix`: drop `suf` from the back when present. -/
def goTrimTrailing (suf l : List Char) : List Char :=
  if suf.isSuffixOf l then l.take (l.length - suf.length) else l

/-- Recursion core of `splitOnSep`; the fuel argument only bounds the scan
(one unit per input element suffices, as each step consumes at least one). -/
def splitOnSepAux (sep : List Char) : Nat → List Char → List (List Char)
  | _, [] => [[]]
  | 0, l => [l]
  | fuel + 1, c :: cs =>
    if sep ≠ [] ∧ sep.isPrefixOf (c :: cs) then
      [] :: splitOnSepAux sep fuel ((c :: cs).drop sep.length)
    else
      match splitOnSepAux sep fuel cs with
      | [] => [[c]]
      | piece :: rest => (c :: piece) :: rest

/-- Models Go `strings.Split` for a non-empty separator: leftmost,
non-overlapping matches; a trailing separator yields a final empty piece.
(The tool only ever splits on the non-empty separators "\n", ", ", "\t"
and ".".) -/
def splitOnSep (sep l : List Char) : List (List Char) :=
  splitOnSepAux sep l.length l

/-- Recursion core of `goReplaceAll`; the fuel argument only bounds the scan. -/
def goReplaceAllAux [DecidableEq α] (pat repl : List α) : Nat → List α → List α
  | _, [] => []
  | 0, l => l
  | fuel + 1, c :: cs =>
    if pat ≠ [] ∧ pat.isPrefixOf (c :: cs) then
      repl ++ goReplaceAllAux pat repl fuel ((c :: cs).drop pat.length)
    else
      c :: goReplaceAllAux pat repl fuel cs

/-- Models Go `strings.ReplaceAll` for a non-empty pattern: scan left to
right, replacing each leftmost non-overlapping occurrence of `pat` by
`repl`.  (The tool only ever replaces the literal token `$(version)`.) -/
def goReplaceAll [DecidableEq α] (pat repl l : List α) : List α :=
  goReplaceAllAux pat repl l.length l

/-! ## Semantic versions (Masterminds/semver `Version`, at the §6 boundary) -/

/-- A parsed semantic version: the (major, minor, patch) triple.  Models
`semver.Version` restricted to plain numeric versions — the release tool's
naming convention `line/vMAJOR.MINOR.PATCH` carries no prerelease or build
metadata. -/
structure SemVer where
  major : Nat
  minor : Nat
  patch : Nat
deriving DecidableEq, Repr

/-- The decimal digit character for `n < 10`. -/
def digitChar : Nat → Char
  | 0 => '0' | 1 => '1' | 2 => '2' | 3 => '3' | 4 => '4'
  | 5 => '5' | 6 => '6' | 7 => '7' | 8 => '8' | _ => '9'

/-- Recursion core of `natToStr`; fuel bounds the number of digits. -/
def natToStrAux : Nat → Nat → List Char
  | 0, _ => []
  | fuel + 1, n =>
    if n < 10 then [digitChar n] else natToStrAux fuel (n / 10) ++ [digitChar (n % 10)]

/-- Models Go `fmt.Sprintf` verb `%d` on an unsigned value: canonical
decimal notation, most significant digit first. -/
def natToStr (n : Nat) : List Char :=
  natToStrAux (n + 1) n

theorem natToStrAux_irrel :
    ∀ f1, ∀ n f2, n < f1 → n < f2 → natToStrAux f1 n = natToStrAux f2 n := by
  intro f1
  induction f1 with
  | zero => intro n f2 h1 h2; omega
  | succ a ih =>
    intro n f2 h1 h2
    cases f2 with
    | zero => omega
    | succ b =>
      simp only [natToStrAux]
      split
      · rfl
      · have hd : n / 10 < n := Nat.div_lt_self (by omega) (by omega)
        rw [ih (n / 10) b (by omega) (by omega)]

/-- The defining recurrence of `natToStr`. -/
theorem natToStr_unfold (n : Nat) :
    natToStr n = if n < 10 then [digitChar n] else natToStr (n / 10) ++ [digitChar (n % 10)] := by
  by_cases h : n < 10
  · rw [if_pos h]
    show natToStrAux (n + 1) n = _
    simp only [natToStrAux]
    rw [if_pos h]
  · rw [if_neg h]
    show natToStrAux (n + 1) n = _
    simp only [natToStrAux]
    rw [if_neg h]
    have hd : n / 10 < n := Nat.div_lt_self (by omega) (by omega)
    exact congrArg (fun l => l ++ [digitChar (n % 10)])
      (natToStrAux_irrel n (n / 10) (n / 10 + 1) hd (by omega))

/-- Numeric value of a digit string (most significant first), as computed
by Go `strconv.ParseUint` on a string of decimal digits. -/
def digitsVal (l : List Char) : Nat :=
  l.foldl (fun a c => 10 * a + (c.toNat - 48)) 0

/-- Parse a non-empty all-digit string as a number; anything else yields
no value.  Models the numeric-part capture of the Masterminds semver
parser together with `strconv.ParseUint`. -/
def parseNatDigits (l : List Char) : Option Nat :=
  if l ≠ [] ∧ l.all Char.isDigit then some (digitsVal l) else none

/-- Splits a string at its first occurrence of `c`; no value when `c`
does not occur. -/
def splitFirstChar (c : Char) : List Char → Option (List Char × List Char)
  | [] => none
  | x :: xs =>
    if x = c then some ([], xs)
    else
      match splitFirstChar c xs with
      | some (a, b) => some (x :: a, b)
      | none => none

/-- An identifier character of the Masterminds prerelease and
build-metadata grammar: the regexp class `[0-9A-Za-z-]`. -/
def isIdentChar (c : Char) : Bool :=
  c.isAlpha || c.isDigit || c = '-'

/-- A dot-separated sequence of non-empty identifier-character pieces —
the prerelease and build-metadata grammar
`[0-9A-Za-z-]+(\.[0-9A-Za-z-]+)*` of the Masterminds parser. -/
def validDotted (s : List Char) : Bool :=
  (splitOnSep ['.'] s).all fun piece => piece ≠ [] && piece.all isIdentChar

/-- The numeric core of the Masterminds grammar: one to three
dot-separated decimal components (`([0-9]+)(\.[0-9]+)?(\.[0-9]+)?`,
leading zeros allowed); missing minor or patch components default to
zero. -/
def parseVersionCore (core : List Char) : Option SemVer :=
  match splitOnSep ['.'] core with
  | [a] => (parseNatDigits a).map fun A => ⟨A, 0, 0⟩
  | [a, b] =>
    match parseNatDigits a, parseNatDigits b with
    | some A, some B => some ⟨A, B, 0⟩
    | _, _ => none
  | [a, b, c] =>
    match parseNatDigits a, parseNatDigits b, parseNatDigits c with
    | some A, some B, some C => some ⟨A, B, C⟩
    | _, _, _ => none
  | _ => none

/-- Models the loose parser `semver.NewVersion` (Masterminds v3), whose
anchored grammar is an optional leading `v`, one to three dot-separated
decimal components, an optional `-` prerelease and an optional `+` build
metadata, each a dot-separated identifier sequence.  Since `+` is not an
identifier character the metadata starts at the first `+`, and since `-`
is not allowed in the numeric core the prerelease starts at the first `-`
before it.  The result is the (major, minor, patch) triple: the
prerelease and metadata parts are validated and then discarded, because
no operation modelled in this file reads them and the Masterminds order
agrees with the triple order whenever the triples differ — so each
`GreaterThan` step of a scan changes the running maximum's triple exactly
as the triple order does, and the commands only ever print the triple
(`%d.%d.%d`).  Numeric components are unbounded `Nat`; the `uint64`
overflow of `strconv.ParseUint` on 20-plus-digit components is not
modelled. -/
def semverNewVersion (l : List Char) : Option SemVer :=
  let t := if l.head? = some 'v' then l.drop 1 else l
  let vpMeta : List Char × Option (List Char) :=
    match splitFirstChar '+' t with
    | some (a, b) => (a, some b)
    | none => (t, none)
  let corePre : List Char × Option (List Char) :=
    match splitFirstChar '-' vpMeta.1 with
    | some (a, b) => (a, some b)
    | none => (vpMeta.1, none)
  let preOK := match corePre.2 with | some p => validDotted p | none => true
  let metaOK := match vpMeta.2 with | some m2 => validDotted m2 | none => true
  if preOK && metaOK then parseVersionCore corePre.1 else none

/-- Models `fmt.Sprintf` with format `%d.%d.%d` applied to the three
components of a version. -/
def formatSemVer (v : SemVer) : List Char :=
  natToStr v.major ++ ['.'] ++ natToStr v.minor ++ ['.'] ++ natToStr v.patch

/-- Models `semver.Version.Compare` on plain numeric versions: major,
then minor, then patch, each numerically. -/
def semverCompare (a b : SemVer) : Ordering :=
  (compare a.major b.major).then ((compare a.minor b.minor).then (compare a.patch b.patch))

/-- Models `semver.Version.GreaterThan`. -/
def semverGreaterThan (a b : SemVer) : Bool :=
  semverCompare a b == Ordering.gt

/-- Models `semver.Version.LessThan`: the strict semantic-version order. -/
def semverLessThan (a b : SemVer) : Bool :=
  semverCompare a b == Ordering.lt

/-! ### Decimal formatting facts -/

theorem digitChar_isDigit (n : Nat) (h : n < 10) : (digitChar n).isDigit = true := by
  interval_cases n <;> decide

theorem digitChar_val (n : Nat) (h : n < 10) : (digitChar n).toNat - 48 = n := by
  interval_cases n <;> decide

theorem natToStr_ne_nil (n : Nat) : natToStr n ≠ [] := by
  rw [natToStr_unfold]
  split
  · simp
  · simp

theorem digitsVal_append_digit (l : List Char) (c : Char) :
    digitsVal (l ++ [c]) = 10 * digitsVal l + (c.toNat - 48) := by
  simp [digitsVal, List.foldl_append]

theorem digitsVal_natToStr (n : Nat) : digitsVal (natToStr n) = n := by
  induction n using Nat.strong_induction_on with
  | _ n ih =>
    rw [natToStr_unfold]
    split
    · next h =>
      simp only [digitsVal, List.foldl_cons, List.foldl_nil]
      have := digitChar_val n h
      omega
    · next h =>
      rw [digitsVal_append_digit]
      have hrec := ih (n / 10) (Nat.div_lt_self (by omega) (by omega))
      have := digitChar_val (n % 10) (Nat.mod_lt n (by omega))
      omega

theorem natToStr_all_digit (n : Nat) : (natToStr n).all Char.isDigit = true := by
  induction n using Nat.strong_induction_on with
  | _ n ih =>
    rw [natToStr_unfold]
    split
    · next h => simp [digitChar_isDigit n h]
    · next h =>
      have hrec := ih (n / 10) (Nat.div_lt_self (by omega) (by omega))
      simp only [List.all_append, List.all_cons, List.all_nil, Bool.and_true,
        Bool.and_eq_true]
      exact ⟨hrec, digitChar_isDigit (n % 10) (Nat.mod_lt n (by omega))⟩

theorem parseNatDigits_natToStr (n : Nat) : parseNatDigits (natToStr n) = some n := by
  simp [parseNatDigits, natToStr_ne_nil n, natToStr_all_digit n, digitsVal_natToStr n]

theorem natToStr_mem_isDigit (n : Nat) (c : Char) (h : c ∈ natToStr n) :
    c.isDigit = true := by
  have hall := natToStr_all_digit n
  rw [List.all_eq_true] at hall
  exact hall c h

theorem digitChar_ne_dot (n : Nat) : digitChar n ≠ '.' := by
  unfold digitChar
  split <;> decide

theorem natToStr_no_dot (n : Nat) : '.' ∉ natToStr n := by
  induction n using Nat.strong_induction_on with
  | _ n ih =>
    rw [natToStr_unfold]
    split
    · next h =>
      simp only [List.mem_singleton]
      exact fun hc => digitChar_ne_dot n hc.symm
    · next h =>
      have hrec := ih (n / 10) (Nat.div_lt_self (by omega) (by omega))
      simp only [List.mem_append, List.mem_singleton]
      rintro (hc | hc)
      · exact hrec hc
      · exact digitChar_ne_dot (n % 10) hc.symm

theorem digitChar_ne_v (n : Nat) : digitChar n ≠ 'v' := by
  unfold digitChar
  split <;> decide

theorem natToStr_head_not_v (n : Nat) : (natToStr n).head? ≠ some 'v' := by
  induction n using Nat.strong_induction_on with
  | _ n ih =>
    rw [natToStr_unfold]
    split
    · next h =>
      simp only [List.head?_cons, ne_eq, Option.some.injEq]
      exact digitChar_ne_v n
    · next h =>
      have hrec := ih (n / 10) (Nat.div_lt_self (by omega) (by omega))
      have hne := natToStr_ne_nil (n / 10)
      cases hx : natToStr (n / 10) with
      | nil => exact absurd hx hne
      | cons a as =>
        rw [hx] at hrec
        simpa using hrec

/-! ### Splitting facts -/

theorem splitOnSepAux_ne_nil (sep : List Char) :
    ∀ fuel l, splitOnSepAux sep fuel l ≠ [] := by
  intro fuel
  induction fuel with
  | zero => intro l; cases l <;> simp [splitOnSepAux]
  | succ a ih =>
    intro l
    cases l with
    | nil => simp [splitOnSepAux]
    | cons c cs =>
      simp only [splitOnSepAux]
      split
      · simp
      · split <;> simp

theorem splitOnSep_ne_nil (sep l : List Char) : splitOnSep sep l ≠ [] :=
  splitOnSepAux_ne_nil sep l.length l

/-- Unfolding step of `splitOnSep` at a position where the separator does
not match. -/
theorem splitOnSep_cons_no_match (sep : List Char) (x : Char) (xs : List Char)
    (h : ¬ sep.isPrefixOf (x :: xs)) :
    splitOnSep sep (x :: xs) =
      match splitOnSep sep xs with
      | [] => [[x]]
      | piece :: rest => (x :: piece) :: rest := by
  show splitOnSepAux sep (xs.length + 1) (x :: xs) = _
  simp only [splitOnSepAux]
  rw [if_neg (fun hc => h hc.2)]
  rfl

theorem splitOnSep_single_of_not_mem (c : Char) (l : List Char) (h : c ∉ l) :
    splitOnSep [c] l = [l] := by
  induction l with
  | nil => rfl
  | cons x xs ih =>
    have hxc : ¬([c].isPrefixOf (x :: xs)) := by
      simp only [List.isPrefixOf_iff_prefix, List.cons_prefix_cons]
      intro hcontra
      exact h (by simp [hcontra.1.symm])
    have hxs : c ∉ xs := fun hm => h (List.mem_cons_of_mem _ hm)
    rw [splitOnSep_cons_no_match [c] x xs hxc, ih hxs]

theorem splitOnSep_single_append (c : Char) (a b : List Char) (h : c ∉ a) :
    splitOnSep [c] (a ++ c :: b) = a :: splitOnSep [c] b := by
  induction a with
  | nil =>
    show splitOnSepAux [c] (b.length + 1) (c :: b) = _
    simp only [splitOnSepAux]
    rw [if_pos ⟨by simp, by simp⟩]
    rfl
  | cons x xs ih =>
    have hxc : x ≠ c := fun hx => h (by simp [hx])
    have hpre : ¬([c].isPrefixOf (x :: (xs ++ c :: b))) := by
      simp only [List.isPrefixOf_iff_prefix, List.cons_prefix_cons]
      intro hcontra
      exact hxc hcontra.1.symm
    have hxs : c ∉ xs := fun hm => h (List.mem_cons_of_mem _ hm)
    rw [List.cons_append, splitOnSep_cons_no_match [c] x (xs ++ c :: b) hpre, ih hxs]

/-- A string with no occurrence of the (non-empty) separator splits into
itself alone. -/
theorem splitOnSep_eq_single (sep l : List Char) (h : ¬ sep <:+: l) :
    splitOnSep sep l = [l] := by
  induction l with
  | nil => rfl
  | cons x xs ih =>
    have hpre : ¬ sep.isPrefixOf (x :: xs) := by
      intro hp
      rw [ List.isPrefixOf_iff_prefix] at hp
      exact h hp.isInfix
    rw [splitOnSep_cons_no_match sep x xs hpre, ih (fun hi => h (List.infix_cons hi))]

/-- Splits a string at its last colon into (everything before, everything
after); no value when the string has no colon.  Models the tag-splitting
step of go-containerregistry `name.NewTag` (§6 registry collaborator). -/
def splitLastColon : List Char → Option (List Char × List Char)
  | [] => none
  | c :: cs =>
    match splitLastColon cs with
    | some (base, tag) => some (c :: base, tag)
    | none => if c = ':' then some ([], cs) else none

theorem splitLastColon_eq_none (l : List Char) (h : ':' ∉ l) :
    splitLastColon l = none := by
  induction l with
  | nil => rfl
  | cons x xs ih =>
    have hxs : ':' ∉ xs := fun hm => h (List.mem_cons_of_mem _ hm)
    have hx : x ≠ ':' := fun hx => h (by simp [hx])
    simp [splitLastColon, ih hxs, hx]

theorem splitLastColon_append (base tag : List Char) (h : ':' ∉ tag) :
    splitLastColon (base ++ ':' :: tag) = some (base, tag) := by
  induction base with
  | nil => simp [splitLastColon, splitLastColon_eq_none tag h]
  | cons x xs ih => simp [splitLastColon, ih]

theorem splitFirstChar_eq_none (c : Char) (l : List Char) (h : c ∉ l) :
    splitFirstChar c l = none := by
  induction l with
  | nil => rfl
  | cons x xs ih =>
    have hxs : c ∉ xs := fun hm => h (List.mem_cons_of_mem _ hm)
    have hx : x ≠ c := fun hx => h (by simp [hx])
    simp [splitFirstChar, ih hxs, hx]

/-- On a plain string — no leading `v`, no `+`, no `-` — the loose parser
reduces to the numeric-core parse. -/
theorem semverNewVersion_plain (l : List Char) (hv : l.head? ≠ some 'v')
    (hp : '+' ∉ l) (hm : '-' ∉ l) :
    semverNewVersion l = parseVersionCore l := by
  unfold semverNewVersion
  rw [if_neg hv]
  simp only [splitFirstChar_eq_none '+' l hp, splitFirstChar_eq_none '-' l hm]
  rfl

/-! ## Version-tag parsing and formatting (publish command, part_002) -/

/-- Parse a tag name of the release line `line` as a version: the tag must
start with `line ++ "/v"` and the remainder must parse as a semantic
version.  This is the tag-name parsing of `NewPublishCmd`
(src/unnamed/part_002 lines 59–63) with the `git log` decoration marker
`"tag: "` stripped off; `parseLogDecoration` below adds the marker back. -/
def parseLineTag (line tag : List Char) : Option SemVer :=
  if (line ++ ['/', 'v']).isPrefixOf tag then
    semverNewVersion (tag.drop (line ++ ['/', 'v']).length)
  else none

/-- Embeds the decoration handling of `NewPublishCmd`
(src/unnamed/part_002 lines 58–65): a decoration piece contributes a
version exactly when it starts with `"tag: " ++ name ++ "/v"` and the rest
parses as a semantic version. -/
def parseLogDecoration (name t : List Char) : Option SemVer :=
  let pre := "tag: ".toList ++ name ++ ['/', 'v']
  if pre.isPrefixOf t then semverNewVersion (t.drop pre.length) else none

theorem semverNewVersion_on_triple (A B C : Nat) :
    semverNewVersion (natToStr A ++ ['.'] ++ natToStr B ++ ['.'] ++ natToStr C) =
      some ⟨A, B, C⟩ := by
  have hmem : ∀ c : Char,
      c ∈ natToStr A ++ ['.'] ++ natToStr B ++ ['.'] ++ natToStr C →
      c.isDigit = true ∨ c = '.' := by
    intro c hc
    simp only [List.mem_append, List.mem_singleton] at hc
    rcases hc with (((h | h) | h) | h) | h
    · exact Or.inl (natToStr_mem_isDigit A c h)
    · exact Or.inr h
    · exact Or.inl (natToStr_mem_isDigit B c h)
    · exact Or.inr h
    · exact Or.inl (natToStr_mem_isDigit C c h)
  have hplus : '+' ∉ natToStr A ++ ['.'] ++ natToStr B ++ ['.'] ++ natToStr C :=
    fun hc => (hmem '+' hc).elim (fun h => absurd h (by decide))
      (fun h => absurd h (by decide))
  have hminus : '-' ∉ natToStr A ++ ['.'] ++ natToStr B ++ ['.'] ++ natToStr C :=
    fun hc => (hmem '-' hc).elim (fun h => absurd h (by decide))
      (fun h => absurd h (by decide))
  have hhead : (natToStr A ++ ['.'] ++ natToStr B ++ ['.'] ++ natToStr C).head? ≠ some 'v' := by
    have hne := natToStr_ne_nil A
    simp only [List.append_assoc, List.head?_append]
    cases hx : natToStr A with
    | nil => exact absurd hx hne
    | cons a as =>
      have := natToStr_head_not_v A
      rw [hx] at this
      simpa using this
  rw [semverNewVersion_plain _ hhead hplus hminus]
  unfold parseVersionCore
  have hsplit :
      splitOnSep ['.'] (natToStr A ++ ['.'] ++ natToStr B ++ ['.'] ++ natToStr C) =
        [natToStr A, natToStr B, natToStr C] := by
    have h1 : (natToStr A ++ ['.'] ++ natToStr B ++ ['.'] ++ natToStr C) =
        natToStr A ++ '.' :: (natToStr B ++ '.' :: natToStr C) := by
      simp
    rw [h1, splitOnSep_single_append _ _ _ (natToStr_no_dot A),
      splitOnSep_single_append _ _ _ (natToStr_no_dot B),
      splitOnSep_single_of_not_mem _ _ (natToStr_no_dot C)]
  simp only [hsplit]
  simp [parseNatDigits_natToStr]

/-- C10: for every conforming tag string `<line>/vA.B.C` (with canonical
decimal components), parsing it as a version of release line `line` — both
as a bare tag name and as a `git log` decoration `"tag: <line>/vA.B.C"` —
yields the triple (A, B, C), and formatting that triple with `%d.%d.%d`
yields back exactly the original `A.B.C` characters. -/
theorem publish_parse_format_roundtrip (line : List Char) (A B C : Nat) :
    parseLineTag line
        (line ++ ['/', 'v'] ++ (natToStr A ++ ['.'] ++ natToStr B ++ ['.'] ++ natToStr C)) =
      some ⟨A, B, C⟩ ∧
    parseLogDecoration line
        ("tag: ".toList ++ line ++ ['/', 'v'] ++
          (natToStr A ++ ['.'] ++ natToStr B ++ ['.'] ++ natToStr C)) =
      some ⟨A, B, C⟩ ∧
    formatSemVer ⟨A, B, C⟩ = natToStr A ++ ['.'] ++ natToStr B ++ ['.'] ++ natToStr C := by
  refine ⟨?_, ?_, rfl⟩
  · unfold parseLineTag
    rw [if_pos (by simp), List.drop_left]
    exact semverNewVersion_on_triple A B C
  · unfold parseLogDecoration
    have hassoc : "tag: ".toList ++ line ++ ['/', 'v'] ++
        (natToStr A ++ ['.'] ++ natToStr B ++ ['.'] ++ natToStr C) =
        ("tag: ".toList ++ line ++ ['/', 'v']) ++
          (natToStr A ++ ['.'] ++ natToStr B ++ ['.'] ++ natToStr C) := by
      simp
    rw [hassoc, if_pos (by simp), List.drop_left]
    exact semverNewVersion_on_triple A B C

/-! ## The publish command state machine (src/unnamed/part_002, `NewPublishCmd`) -/

theorem parseLogDecoration_nil (name : List Char) :
    parseLogDecoration name [] = none := by
  unfold parseLogDecoration
  rw [if_neg]
  intro hp
  rw [ List.isPrefixOf_iff_prefix] at hp
  have hq := List.prefix_nil.mp hp
  have hne : "tag: ".toList ≠ ([] : List Char) := by decide
  simp only [List.append_eq_nil] at hq
  exact hne hq.1.1

/-- Inner loop of `find_loop` (part_002 lines 57–67): scan the
comma-separated decoration pieces of one log line; the first piece that
parses as a tag of the release line yields its version. -/
def findLoopTags (name : List Char) : List (List Char) → Option SemVer
  | [] => none
  | tag :: rest =>
    match parseLogDecoration name (trimSpace tag) with
    | some v => some v
    | none => findLoopTags name rest

/-- Outer loop of `find_loop` (part_002 lines 50–68): scan the decorated
log lines in order, skipping empty lines; `break find_loop` on the first
hit, keeping the initial `0.0.0` when no line hits. -/
def findLoopLines (name : List Char) : List (List Char) → SemVer
  | [] => ⟨0, 0, 0⟩
  | line :: rest =>
    if line = [] then findLoopLines name rest
    else
      match findLoopTags name (splitOnSep ", ".toList (trimSpace line)) with
      | some v => v
      | none => findLoopLines name rest

/-- The `latestVersion` computation of `NewPublishCmd` (part_002 lines
41–68): split the output of
`git log --pretty=format:%D --simplify-by-decoration HEAD` into lines and
run `find_loop` over them.  The result is the triple of the version the
loop breaks on; the remainder of the command reads nothing but that
triple (`Major()`, `Minor()`, `Patch()` and `%d.%d.%d` formatting), so
dropping a prerelease part loses nothing observable. -/
def publishLatestVersion (name logOutput : List Char) : SemVer :=
  findLoopLines name (splitOnSep ['\n'] logOutput)

/-- Spec-side reading of the same scan: the triple of every tag of the
release line whose suffix the loose parser accepts (prerelease and
metadata forms included), in log order (most recently decorated commit
first). -/
def logLineVersions (name logOutput : List Char) : List SemVer :=
  (splitOnSep ['\n'] logOutput).flatMap fun line =>
    (splitOnSep ", ".toList (trimSpace line)).filterMap fun tag =>
      parseLogDecoration name (trimSpace tag)

theorem findLoopTags_eq (name : List Char) (tags : List (List Char)) :
    findLoopTags name tags =
      (tags.filterMap fun t => parseLogDecoration name (trimSpace t)).head? := by
  induction tags with
  | nil => rfl
  | cons t rest ih =>
    cases hp : parseLogDecoration name (trimSpace t) with
    | some v => simp [findLoopTags, hp, List.filterMap_cons_some hp]
    | none => simp [findLoopTags, hp, List.filterMap_cons_none hp, ih]

theorem findLoopLines_eq (name : List Char) (ls : List (List Char)) :
    findLoopLines name ls =
      ((ls.flatMap fun line =>
          (splitOnSep ", ".toList (trimSpace line)).filterMap fun tag =>
            parseLogDecoration name (trimSpace tag)).head?).getD ⟨0, 0, 0⟩ := by
  induction ls with
  | nil => rfl
  | cons line rest ih =>
    have hstep : findLoopLines name (line :: rest) =
        if line = [] then findLoopLines name rest
        else
          match findLoopTags name (splitOnSep ", ".toList (trimSpace line)) with
          | some v => v
          | none => findLoopLines name rest := rfl
    by_cases hl : line = []
    · subst hl
      have hempty : ((splitOnSep ", ".toList (trimSpace ([] : List Char))).filterMap
          fun tag => parseLogDecoration name (trimSpace tag)) = [] := by
        have h1 : splitOnSep ", ".toList (trimSpace ([] : List Char)) = [[]] := rfl
        rw [h1, List.filterMap_cons_none, List.filterMap_nil]
        rw [show trimSpace ([] : List Char) = [] from rfl, parseLogDecoration_nil]
      rw [hstep, if_pos rfl, List.flatMap_cons, hempty, List.nil_append]
      exact ih
    · rw [hstep, if_neg hl, List.flatMap_cons, List.head?_append]
      cases hm : findLoopTags name (splitOnSep ", ".toList (trimSpace line)) with
      | some v =>
        have hh := hm
        rw [findLoopTags_eq] at hh
        rw [hh]
        rfl
      | none =>
        have hh := hm
        rw [findLoopTags_eq] at hh
        rw [hh, ih]
        rfl

/-- C1 (amended): the `latest` version that publish bumps from is the
version of the FIRST tag of the release line encountered in the
decorated-log scan whose suffix after `<line>/v` the loose
`semver.NewVersion` grammar accepts — prerelease and metadata forms such
as `a/v1.2.3-rc1` included — with the most recently decorated commit
winning and default `0.0.0` when no line carries such a tag; it is not
the maximum of all reachable tags under semantic-version order.  Tags of
other release lines never contribute, since only pieces starting with
`"tag: " ++ name ++ "/v"` parse. -/
theorem publish_latest_is_first_matching_tag (name logOutput : List Char) :
    publishLatestVersion name logOutput =
      (logLineVersions name logOutput).head?.getD ⟨0, 0, 0⟩ := by
  unfold publishLatestVersion logLineVersions
  exact findLoopLines_eq name (splitOnSep ['\n'] logOutput)

/-- C1 counterexample: with decorated-log output listing `a/v0.1.5` on a
more recent commit than `a/v0.2.0` (both reachable from the current
commit), publish resolves `latest` to 0.1.5 although 0.2.0 is among the
reachable tags of the line and is strictly greater — so `latest` is not
the semantic-version maximum. -/
theorem publish_latest_not_max_counterexample :
    publishLatestVersion "a".toList "tag: a/v0.1.5\ntag: a/v0.2.0".toList = ⟨0, 1, 5⟩ ∧
    (⟨0, 2, 0⟩ : SemVer) ∈ logLineVersions "a".toList "tag: a/v0.1.5\ntag: a/v0.2.0".toList ∧
    semverLessThan ⟨0, 1, 5⟩ ⟨0, 2, 0⟩ = true :=
  ⟨by decide, by decide, by decide⟩

/-- The externally visible effect plan of one run of `NewPublishCmd`
(part_002 lines 36–104), as a function of the git facts it reads: the
release-line name, the current branch name, the current commit hash and
the decorated-log output.  Each `...Args` field records the argument
vector of the corresponding `git` invocation; `newBranch` is the name of
the newly created release branch, when one is created. -/
structure PublishPlan where
  newVersion : SemVer
  branchPushArgs : List (List Char)
  newBranch : Option (List Char)
  tagName : List Char
  tagCreateArgs : List (List Char)
  tagPushArgs : List (List Char)
deriving DecidableEq, Repr

/-- Embeds the branch/tag decision of `NewPublishCmd` (part_002 lines
36–104): release-branch detection by the prefix test of line 38, the
version bump of lines 72–89, and the tag commands of lines 91–104. -/
def publishPlan (name currentBranch currentCommit logOutput : List Char) : PublishPlan :=
  let isReleaseBranch := ("release-".toList ++ name ++ "-".toList).isPrefixOf currentBranch
  let latestVersion := publishLatestVersion name logOutput
  let newVersion : SemVer :=
    if isReleaseBranch then
      ⟨latestVersion.major, latestVersion.minor, latestVersion.patch + 1⟩
    else
      ⟨latestVersion.major, latestVersion.minor + 1, latestVersion.patch⟩
  let newBranchName :=
    "release-".toList ++ name ++ "-".toList ++ natToStr newVersion.major ++ ['.'] ++
      natToStr newVersion.minor
  let tagName := name ++ "/v".toList ++ formatSemVer newVersion
  { newVersion := newVersion
    branchPushArgs :=
      if isReleaseBranch then ["push".toList, "origin".toList, currentBranch]
      else ["push".toList, "origin".toList,
        currentCommit ++ ":refs/heads/".toList ++ newBranchName]
    newBranch := if isReleaseBranch then none else some newBranchName
    tagName := tagName
    tagCreateArgs := ["tag".toList, "-f".toList, tagName, currentCommit]
    tagPushArgs := ["push".toList, "-f".toList, "origin".toList, tagName] }

/-- C2 counterexample: on branch `master` with `latest` resolving to
0.1.1, the mainline publish computes version 0.2.1 — the patch component
is carried over, not reset to zero as the claim states. -/
theorem publish_mainline_patch_counterexample :
    (publishPlan "a".toList "master".toList "c0".toList
        "tag: a/v0.1.1".toList).newVersion = ⟨0, 2, 1⟩ ∧
    (⟨0, 2, 1⟩ : SemVer) ≠ ⟨0, 2, 0⟩ :=
  ⟨by decide, by decide⟩

/-- C2 (amended): when the current branch name does not start with
`release-<line>-`, the published version is
(latest.major, latest.minor + 1, latest.patch) — the minor component is
incremented and the patch component is carried over unchanged (so it is 0
exactly when latest.patch was 0) — and the new branch
`release-<line>-<major>.<new minor>` pointing at the current commit is
pushed to the remote. -/
theorem publish_mainline_bump (name currentBranch currentCommit logOutput : List Char)
    (h : ("release-".toList ++ name ++ "-".toList).isPrefixOf currentBranch = false) :
    (publishPlan name currentBranch currentCommit logOutput).newVersion =
      ⟨(publishLatestVersion name logOutput).major,
        (publishLatestVersion name logOutput).minor + 1,
        (publishLatestVersion name logOutput).patch⟩ ∧
    (publishPlan name currentBranch currentCommit logOutput).newBranch =
      some ("release-".toList ++ name ++ "-".toList ++
        natToStr (publishLatestVersion name logOutput).major ++ ['.'] ++
        natToStr ((publishLatestVersion name logOutput).minor + 1)) ∧
    (publishPlan name currentBranch currentCommit logOutput).branchPushArgs =
      ["push".toList, "origin".toList,
        currentCommit ++ ":refs/heads/".toList ++
          ("release-".toList ++ name ++ "-".toList ++
            natToStr (publishLatestVersion name logOutput).major ++ ['.'] ++
            natToStr ((publishLatestVersion name logOutput).minor + 1))] := by
  have hneg : ¬("release-".toList ++ name ++ "-".toList <+: currentBranch) := by
    intro hp
    have hb := List.isPrefixOf_iff_prefix.mpr hp
    rw [h] at hb
    exact absurd hb (by decide)
  simp only [List.cons_append, List.nil_append] at hneg
  simp at hneg
  refine ⟨?_, ?_, ?_⟩ <;> simp [publishPlan, hneg]

theorem publish_mainline_bump_witness :
    (publishPlan "a".toList "master".toList "c0".toList
        "tag: a/v0.1.1".toList).newVersion =
      ⟨(publishLatestVersion "a".toList "tag: a/v0.1.1".toList).major,
        (publishLatestVersion "a".toList "tag: a/v0.1.1".toList).minor + 1,
        (publishLatestVersion "a".toList "tag: a/v0.1.1".toList).patch⟩ ∧
    (publishPlan "a".toList "master".toList "c0".toList
        "tag: a/v0.1.1".toList).newBranch =
      some ("release-".toList ++ "a".toList ++ "-".toList ++
        natToStr (publishLatestVersion "a".toList "tag: a/v0.1.1".toList).major ++ ['.'] ++
        natToStr ((publishLatestVersion "a".toList "tag: a/v0.1.1".toList).minor + 1)) ∧
    (publishPlan "a".toList "master".toList "c0".toList
        "tag: a/v0.1.1".toList).branchPushArgs =
      ["push".toList, "origin".toList,
        "c0".toList ++ ":refs/heads/".toList ++
          ("release-".toList ++ "a".toList ++ "-".toList ++
            natToStr (publishLatestVersion "a".toList "tag: a/v0.1.1".toList).major ++
            ['.'] ++
            natToStr ((publishLatestVersion "a".toList
              "tag: a/v0.1.1".toList).minor + 1))] :=
  publish_mainline_bump "a".toList "master".toList "c0".toList "tag: a/v0.1.1".toList
    (by decide)

/-- C3: when the current branch name matches `release-<line>-<major>.<minor>`,
publish computes (latest.major, latest.minor, latest.patch + 1), creates no
new release branch, pushes the current branch as-is (non-forced), creates
the tag `<line>/v<major>.<minor>.<patch>` at the current commit with
`git tag -f` and pushes it with `git push -f`. -/
theorem publish_release_branch_patch_bump
    (name currentBranch currentCommit logOutput : List Char) (M m : Nat)
    (h : currentBranch =
      "release-".toList ++ name ++ "-".toList ++ natToStr M ++ ['.'] ++ natToStr m) :
    (publishPlan name currentBranch currentCommit logOutput).newVersion =
      ⟨(publishLatestVersion name logOutput).major,
        (publishLatestVersion name logOutput).minor,
        (publishLatestVersion name logOutput).patch + 1⟩ ∧
    (publishPlan name currentBranch currentCommit logOutput).newBranch = none ∧
    (publishPlan name currentBranch currentCommit logOutput).branchPushArgs =
      ["push".toList, "origin".toList, currentBranch] ∧
    (publishPlan name currentBranch currentCommit logOutput).tagName =
      name ++ "/v".toList ++ formatSemVer
        ⟨(publishLatestVersion name logOutput).major,
          (publishLatestVersion name logOutput).minor,
          (publishLatestVersion name logOutput).patch + 1⟩ ∧
    (publishPlan name currentBranch currentCommit logOutput).tagCreateArgs =
      ["tag".toList, "-f".toList,
        (publishPlan name currentBranch currentCommit logOutput).tagName, currentCommit] ∧
    (publishPlan name currentBranch currentCommit logOutput).tagPushArgs =
      ["push".toList, "-f".toList, "origin".toList,
        (publishPlan name currentBranch currentCommit logOutput).tagName] := by
  have hpos : "release-".toList ++ name ++ "-".toList <+: currentBranch := by
    subst h
    exact ⟨natToStr M ++ ['.'] ++ natToStr m, by simp⟩
  simp at hpos
  refine ⟨?_, ?_, ?_, ?_, ?_, ?_⟩ <;> simp [publishPlan, hpos]

theorem publish_release_branch_patch_bump_witness :
    (publishPlan "a".toList "release-a-0.1".toList "c0".toList
        "tag: a/v0.1.1".toList).newVersion =
      ⟨(publishLatestVersion "a".toList "tag: a/v0.1.1".toList).major,
        (publishLatestVersion "a".toList "tag: a/v0.1.1".toList).minor,
        (publishLatestVersion "a".toList "tag: a/v0.1.1".toList).patch + 1⟩ ∧
    (publishPlan "a".toList "release-a-0.1".toList "c0".toList
        "tag: a/v0.1.1".toList).newBranch = none ∧
    (publishPlan "a".toList "release-a-0.1".toList "c0".toList
        "tag: a/v0.1.1".toList).branchPushArgs =
      ["push".toList, "origin".toList, "release-a-0.1".toList] ∧
    (publishPlan "a".toList "release-a-0.1".toList "c0".toList
        "tag: a/v0.1.1".toList).tagName =
      "a".toList ++ "/v".toList ++ formatSemVer
        ⟨(publishLatestVersion "a".toList "tag: a/v0.1.1".toList).major,
          (publishLatestVersion "a".toList "tag: a/v0.1.1".toList).minor,
          (publishLatestVersion "a".toList "tag: a/v0.1.1".toList).patch + 1⟩ ∧
    (publishPlan "a".toList "release-a-0.1".toList "c0".toList
        "tag: a/v0.1.1".toList).tagCreateArgs =
      ["tag".toList, "-f".toList,
        (publishPlan "a".toList "release-a-0.1".toList "c0".toList
          "tag: a/v0.1.1".toList).tagName, "c0".toList] ∧
    (publishPlan "a".toList "release-a-0.1".toList "c0".toList
        "tag: a/v0.1.1".toList).tagPushArgs =
      ["push".toList, "-f".toList, "origin".toList,
        (publishPlan "a".toList "release-a-0.1".toList "c0".toList
          "tag: a/v0.1.1".toList).tagName] :=
  publish_release_branch_patch_bump "a".toList "release-a-0.1".toList "c0".toList
    "tag: a/v0.1.1".toList 0 1 (by decide)

/-! ## Branch-based latest-version scans (src/cmd/publish.go lines 42–58 and
src/unnamed/part_002 lines 149–169) -/

/-- One candidate of the branch scan of `NewPublishCmd` in
src/cmd/publish.go (lines 45–58): trim the branch name, strip a leading
`origin/`, and when the name starts with `release-<name>-` parse the
remainder with `.0` appended as a semantic version; any other candidate
contributes nothing. -/
def branchCandidateVersion (name branch : List Char) : Option SemVer :=
  let b := trimSpace branch
  let b := if "origin/".toList.isPrefixOf b then goTrimLeading "origin/".toList b else b
  if ("release-".toList ++ name ++ "-".toList).isPrefixOf b then
    semverNewVersion
      (goTrimLeading ("release-".toList ++ name ++ "-".toList) b ++ ".0".toList)
  else none

/-- One candidate of the remote-branch scan of `NewPublishCmd` in
src/unnamed/part_002 (lines 152–169): skip empty lines and lines that do
not split into exactly two tab-separated fields, strip `refs/heads/` from
the second field, and when it starts with `release-<name>-` parse the
remainder with `.0` appended; any other line contributes nothing. -/
def lsRemoteCandidateVersion (name line : List Char) : Option SemVer :=
  if line = [] then none
  else
    let parts := splitOnSep ['\t'] line
    if parts.length ≠ 2 then none
    else
      let branchName := goTrimLeading "refs/heads/".toList (parts.getD 1 [])
      if ("release-".toList ++ name ++ "-".toList).isPrefixOf branchName then
        semverNewVersion
          (goTrimLeading ("release-".toList ++ name ++ "-".toList) branchName ++ ".0".toList)
      else none

/-- The accumulator step shared by both scans: keep the running maximum,
taking a candidate only when it parses and is strictly greater
(`version.GreaterThan(latestVersion)`).  The fold tracks only the triple:
the Masterminds order consults the prerelease part only when two triples
are equal, and in that case replacing the running maximum leaves its
triple unchanged — so the fold's resulting triple is exactly the
program's. -/
def maxStep (cand : List Char → Option SemVer) (latest : SemVer) (x : List Char) : SemVer :=
  match cand x with
  | some v => if semverGreaterThan v latest then v else latest
  | none => latest

/-- The `latestVersion` fold of src/cmd/publish.go lines 43–58, over the
listed candidate branch names, starting from `0.0.0`. -/
def branchLatestVersion (name : List Char) (branches : List (List Char)) : SemVer :=
  branches.foldl (maxStep (branchCandidateVersion name)) ⟨0, 0, 0⟩

/-- The `latestVersion` fold of src/unnamed/part_002 lines 150–169, over
the lines of `git ls-remote --heads` output, starting from `0.0.0`. -/
def lsRemoteLatestVersion (name : List Char) (remoteLines : List (List Char)) : SemVer :=
  remoteLines.foldl (maxStep (lsRemoteCandidateVersion name)) ⟨0, 0, 0⟩

theorem maxStep_none (cand : List Char → Option SemVer) (x : List Char)
    (h : cand x = none) (acc : SemVer) : maxStep cand acc x = acc := by
  simp [maxStep, h]

theorem foldl_maxStep_all_none (cand : List Char → Option SemVer)
    (l : List (List Char)) (h : ∀ x ∈ l, cand x = none) :
    ∀ acc, l.foldl (maxStep cand) acc = acc := by
  induction l with
  | nil => intro acc; rfl
  | cons x xs ih =>
    intro acc
    rw [List.foldl_cons, maxStep_none cand x (h x (by simp)) acc]
    exact ih (fun y hy => h y (List.mem_cons_of_mem _ hy)) acc

theorem foldl_maxStep_skip (cand : List Char → Option SemVer)
    (l1 l2 : List (List Char)) (bad : List Char) (h : cand bad = none) (acc : SemVer) :
    (l1 ++ bad :: l2).foldl (maxStep cand) acc = (l1 ++ l2).foldl (maxStep cand) acc := by
  rw [List.foldl_append, List.foldl_append, List.foldl_cons,
    maxStep_none cand bad h (l1.foldl (maxStep cand) acc)]

/-- C9 (amended): both `latestVersion` scans return the defined default
`0.0.0` on an empty candidate set and on any set whose members are all
skipped, and a skipped candidate never affects the result (nor raises an
error — the scans are total).  A candidate is skipped exactly when, after
trimming and `origin/`- or `refs/heads/`-stripping, it lacks the
`release-<line>-` prefix or its remainder with `.0` appended fails the
loose `semver.NewVersion` grammar — which the `...CandidateVersion name
b = none` hypotheses below say precisely.  Merely belonging to a
different release line does NOT guarantee a skip: see the
counterexample. -/
theorem latestVersion_default_and_skip (name bad bad2 : List Char)
    (l1 l2 l3 l4 : List (List Char))
    (h1 : ∀ b ∈ l1, branchCandidateVersion name b = none)
    (hbad : branchCandidateVersion name bad = none)
    (h3 : ∀ b ∈ l3, lsRemoteCandidateVersion name b = none)
    (hbad2 : lsRemoteCandidateVersion name bad2 = none) :
    branchLatestVersion name [] = ⟨0, 0, 0⟩ ∧
    branchLatestVersion name l1 = ⟨0, 0, 0⟩ ∧
    branchLatestVersion name (l1 ++ bad :: l2) = branchLatestVersion name (l1 ++ l2) ∧
    lsRemoteLatestVersion name [] = ⟨0, 0, 0⟩ ∧
    lsRemoteLatestVersion name l3 = ⟨0, 0, 0⟩ ∧
    lsRemoteLatestVersion name (l3 ++ bad2 :: l4) = lsRemoteLatestVersion name (l3 ++ l4) :=
  ⟨rfl,
    foldl_maxStep_all_none _ l1 h1 ⟨0, 0, 0⟩,
    foldl_maxStep_skip _ l1 l2 bad hbad ⟨0, 0, 0⟩,
    rfl,
    foldl_maxStep_all_none _ l3 h3 ⟨0, 0, 0⟩,
    foldl_maxStep_skip _ l3 l4 bad2 hbad2 ⟨0, 0, 0⟩⟩

theorem latestVersion_default_and_skip_witness :
    branchLatestVersion "a".toList [] = ⟨0, 0, 0⟩ ∧
    branchLatestVersion "a".toList
        ["master".toList, "origin/release-b-1.2".toList, "release-a-xyz".toList] =
      ⟨0, 0, 0⟩ ∧
    branchLatestVersion "a".toList
        (["master".toList, "origin/release-b-1.2".toList, "release-a-xyz".toList] ++
          "release-b-9.9".toList :: ["release-a-1.0".toList]) =
      branchLatestVersion "a".toList
        (["master".toList, "origin/release-b-1.2".toList, "release-a-xyz".toList] ++
          ["release-a-1.0".toList]) ∧
    lsRemoteLatestVersion "a".toList [] = ⟨0, 0, 0⟩ ∧
    lsRemoteLatestVersion "a".toList ["c0\trefs/heads/release-b-1.2".toList] = ⟨0, 0, 0⟩ ∧
    lsRemoteLatestVersion "a".toList
        (["c0\trefs/heads/release-b-1.2".toList] ++
          "c0\trefs/heads/release-a-broken".toList :: ["c0\trefs/heads/release-a-1.0".toList]) =
      lsRemoteLatestVersion "a".toList
        (["c0\trefs/heads/release-b-1.2".toList] ++ ["c0\trefs/heads/release-a-1.0".toList]) :=
  latestVersion_default_and_skip "a".toList "release-b-9.9".toList
    "c0\trefs/heads/release-a-broken".toList
    ["master".toList, "origin/release-b-1.2".toList, "release-a-xyz".toList]
    ["release-a-1.0".toList]
    ["c0\trefs/heads/release-b-1.2".toList]
    ["c0\trefs/heads/release-a-1.0".toList]
    (by decide) (by decide) (by decide) (by decide)

/-- C9 counterexample: the branch `release-a-1-2.3` — a branch of release
line `a-1`, not of line `a`, whose remainder `1-2.3` is not of the
convention's `<major>.<minor>` shape (its first dot-component `1-2` is
not a number) — is NOT silently skipped when resolving line `a`: the
loose parser reads `1-2.3` with `.0` appended as version `1.0.0` with
prerelease `2.3.0`, so both scans yield 1.0.0 instead of the claimed
0.0.0. -/
theorem latestVersion_foreign_line_counterexample :
    branchLatestVersion "a".toList ["release-a-1-2.3".toList] = ⟨1, 0, 0⟩ ∧
    (⟨1, 0, 0⟩ : SemVer) ≠ ⟨0, 0, 0⟩ ∧
    lsRemoteLatestVersion "a".toList ["c0\trefs/heads/release-a-1-2.3".toList] =
      ⟨1, 0, 0⟩ ∧
    splitOnSep ['.'] "1-2.3".toList = ["1-2".toList, "3".toList] ∧
    parseNatDigits "1-2".toList = none :=
  ⟨by decide, by decide, by decide, by decide, by decide⟩

/-! ## The oci command (src/unnamed/part_001, `getLatestVersionTag` and
`NewOciCmd`) -/

/-- The git facts read by `getLatestVersionTag` (part_001 lines 22–65):
whether `git rev-parse --is-inside-work-tree` succeeds in the directory,
the output of `git describe --tags --abbrev=0` (no value when the command
fails, e.g. no tag exists), and the output of `git rev-parse HEAD` (no
value when it fails). -/
structure OciGitEnv where
  isWorkTree : Bool
  describeOutput : Option (List Char)
  headHashOutput : Option (List Char)
deriving DecidableEq

/-- Embeds `getLatestVersionTag` (part_001 lines 22–65).  `none` stands
for the error return ("failed to get commit hash"); every other path
returns a string: `0.0.0` outside a git work tree, the version extracted
from a matching `name/v` describe tag (with a trailing `^0` stripped), and
otherwise the trimmed current commit hash. -/
def getLatestVersionTag (name : List Char) (env : OciGitEnv) : Option (List Char) :=
  if env.isWorkTree = false then some "0.0.0".toList
  else
    match env.describeOutput with
    | none =>
      match env.headHashOutput with
      | none => none
      | some h => some (trimSpace h)
    | some out =>
      let tag := trimSpace out
      if ¬((name ++ "/v".toList).isPrefixOf tag) then
        match env.headHashOutput with
        | none => none
        | some h => some (trimSpace h)
      else
        some (goTrimTrailing "^0".toList (goTrimLeading (name ++ "/v".toList) tag))

/-- C6 counterexample: a directory inside a git work tree whose history
has no tags at all (`git describe` fails): version resolution returns the
current commit hash `abc123`, not the string `0.0.0`. -/
theorem oci_version_untagged_repo_counterexample :
    getLatestVersionTag "a".toList
        ⟨true, none, some "abc123".toList⟩ = some "abc123".toList ∧
    some "abc123".toList ≠ some "0.0.0".toList :=
  ⟨by decide, by decide⟩

/-- C6 (amended): the packaging version resolution returns `0.0.0` when
the directory is NOT inside a git work tree (that fallback is how an
untagged non-repository directory is tolerated); inside a work tree it
does not default to `0.0.0`: when `git describe` finds no tag at all, or
when the nearest tag does not start with `<line>/v`, it returns the
trimmed current commit hash (still succeeding), and only a nearest tag
starting with `<line>/v` yields that tag's version string (with a
trailing `^0` stripped).  The four implications cover every case of the
resolution, so inside a work tree `0.0.0` can arise only out of the tag
or hash text itself (e.g. a nearest tag `<line>/v0.0.0`). -/
theorem oci_version_fallbacks (name out : List Char) (env : OciGitEnv) :
    (env.isWorkTree = false → getLatestVersionTag name env = some "0.0.0".toList) ∧
    (env.isWorkTree = true → env.describeOutput = none →
      getLatestVersionTag name env = env.headHashOutput.map trimSpace) ∧
    (env.isWorkTree = true → env.describeOutput = some out →
      (name ++ "/v".toList).isPrefixOf (trimSpace out) = false →
      getLatestVersionTag name env = env.headHashOutput.map trimSpace) ∧
    (env.isWorkTree = true → env.describeOutput = some out →
      (name ++ "/v".toList).isPrefixOf (trimSpace out) = true →
      getLatestVersionTag name env =
        some (goTrimTrailing "^0".toList
          (goTrimLeading (name ++ "/v".toList) (trimSpace out)))) := by
  obtain ⟨w, dOut, hOut⟩ := env
  refine ⟨?_, ?_, ?_, ?_⟩
  · intro h
    subst h
    simp [getLatestVersionTag]
  · intro h hd
    subst h
    subst hd
    cases hOut with
    | none => simp [getLatestVersionTag]
    | some v => simp [getLatestVersionTag]
  · intro h hd hpre
    subst h
    subst hd
    have hnp : ¬((name ++ "/v".toList) <+: trimSpace out) := fun hq =>
      Bool.noConfusion (( List.isPrefixOf_iff_prefix.mpr hq).symm.trans hpre)
    simp at hnp
    cases hOut with
    | none => simp [getLatestVersionTag, hnp]
    | some v => simp [getLatestVersionTag, hnp]
  · intro h hd hpre
    subst h
    subst hd
    have hp : (name ++ "/v".toList) <+: trimSpace out :=
      List.isPrefixOf_iff_prefix.mp hpre
    simp at hp
    simp [getLatestVersionTag, hp]

theorem oci_version_fallbacks_witness :
    ((⟨true, some "b/v1.2.3".toList, some " abc123\n".toList⟩ : OciGitEnv).isWorkTree =
        false →
      getLatestVersionTag "a".toList
          ⟨true, some "b/v1.2.3".toList, some " abc123\n".toList⟩ =
        some "0.0.0".toList) ∧
    ((⟨true, some "b/v1.2.3".toList, some " abc123\n".toList⟩ : OciGitEnv).isWorkTree =
        true →
      (⟨true, some "b/v1.2.3".toList, some " abc123\n".toList⟩ : OciGitEnv).describeOutput =
        none →
      getLatestVersionTag "a".toList
          ⟨true, some "b/v1.2.3".toList, some " abc123\n".toList⟩ =
        (⟨true, some "b/v1.2.3".toList,
          some " abc123\n".toList⟩ : OciGitEnv).headHashOutput.map trimSpace) ∧
    ((⟨true, some "b/v1.2.3".toList, some " abc123\n".toList⟩ : OciGitEnv).isWorkTree =
        true →
      (⟨true, some "b/v1.2.3".toList, some " abc123\n".toList⟩ : OciGitEnv).describeOutput =
        some "b/v1.2.3".toList →
      ("a".toList ++ "/v".toList).isPrefixOf (trimSpace "b/v1.2.3".toList) = false →
      getLatestVersionTag "a".toList
          ⟨true, some "b/v1.2.3".toList, some " abc123\n".toList⟩ =
        (⟨true, some "b/v1.2.3".toList,
          some " abc123\n".toList⟩ : OciGitEnv).headHashOutput.map trimSpace) ∧
    ((⟨true, some "b/v1.2.3".toList, some " abc123\n".toList⟩ : OciGitEnv).isWorkTree =
        true →
      (⟨true, some "b/v1.2.3".toList, some " abc123\n".toList⟩ : OciGitEnv).describeOutput =
        some "b/v1.2.3".toList →
      ("a".toList ++ "/v".toList).isPrefixOf (trimSpace "b/v1.2.3".toList) = true →
      getLatestVersionTag "a".toList
          ⟨true, some "b/v1.2.3".toList, some " abc123\n".toList⟩ =
        some (goTrimTrailing "^0".toList
          (goTrimLeading ("a".toList ++ "/v".toList) (trimSpace "b/v1.2.3".toList)))) :=
  oci_version_fallbacks "a".toList "b/v1.2.3".toList
    ⟨true, some "b/v1.2.3".toList, some " abc123\n".toList⟩

/-- The byte sequence of the literal placeholder token `$(version)`. -/
def versionToken : List Nat := [36, 40, 118, 101, 114, 115, 105, 111, 110, 41]

/-- The kind of a filesystem entry seen by the `filepath.Walk` callback:
a regular file carries its raw byte contents (read via `io.ReadAll`). -/
inductive WalkKind where
  | regularFile (content : List Nat)
  | directory
  | other
deriving DecidableEq

/-- One entry handed to the walk callback of `NewOciCmd` (part_001 lines
122–178): the absolute path, the path relative to the walk root
(`filepath.Rel dir path`), and the entry's kind. -/
structure WalkEntry where
  path : List Char
  rel : List Char
  kind : WalkKind
deriving DecidableEq

/-- One tar entry as written by the callback: header name, declared header
size, and the bytes written after the header. -/
structure TarEntry where
  name : List Char
  size : Nat
  content : List Nat
deriving DecidableEq

/-- Embeds the body of the walk callback (part_001 lines 122–178): the
root is skipped (line 128); for a regular file the contents are read,
every `$(version)` replaced by the resolved version, the header size set
to the rewritten length (line 164) and header plus rewritten bytes
written; for any other entry — directories included — a header is built
(line 139) but `tw.WriteHeader` is only reached inside the
`info.Mode().IsRegular()` branch, so nothing is emitted. -/
def walkStep (dirPath : List Char) (version : List Nat) (e : WalkEntry) : List TarEntry :=
  if e.path = dirPath then []
  else
    match e.kind with
    | .regularFile content =>
      let contentStr := goReplaceAll versionToken version content
      [⟨e.rel, contentStr.length, contentStr⟩]
    | .directory => []
    | .other => []

/-- The tar stream produced by walking the whole directory (part_001
lines 122–178): the concatenation of the per-entry emissions in walk
order. -/
def ociTarball (dirPath : List Char) (version : List Nat) (walk : List WalkEntry) :
    List TarEntry :=
  walk.flatMap (walkStep dirPath version)

/-- Replacing a pattern that never occurs in the input is the identity. -/
theorem goReplaceAll_of_not_infix [DecidableEq α] (pat repl : List α) (l : List α)
    (h : ¬ pat <:+: l) : goReplaceAll pat repl l = l := by
  induction l with
  | nil => rfl
  | cons c cs ih =>
    show goReplaceAllAux pat repl (cs.length + 1) (c :: cs) = c :: cs
    simp only [goReplaceAllAux]
    rw [if_neg (fun hc => h ( List.isPrefixOf_iff_prefix.mp hc.2).isInfix)]
    exact congrArg (c :: ·) (ih (fun hi => h (List.infix_cons hi)))

/-- C5: for every regular file of the walked tree (other than the root)
the emitted archive holds an entry whose bytes are the file's contents
with every occurrence of `$(version)` replaced by the resolved version,
and whose declared header size equals the byte length of the REWRITTEN
content; a file with no occurrence of the token is archived unchanged. -/
theorem oci_file_entry_rewrite (dirPath : List Char) (version : List Nat)
    (walk : List WalkEntry) (p rel : List Char) (content : List Nat)
    (hmem : WalkEntry.mk p rel (WalkKind.regularFile content) ∈ walk)
    (hroot : p ≠ dirPath) :
    TarEntry.mk rel (goReplaceAll versionToken version content).length
        (goReplaceAll versionToken version content) ∈ ociTarball dirPath version walk ∧
    (¬ versionToken <:+: content → goReplaceAll versionToken version content = content) := by
  constructor
  · rw [ociTarball, List.mem_flatMap]
    refine ⟨WalkEntry.mk p rel (WalkKind.regularFile content), hmem, ?_⟩
    simp [walkStep, hroot]
  · exact goReplaceAll_of_not_infix versionToken version content

theorem oci_file_entry_rewrite_witness :
    TarEntry.mk "f".toList
        (goReplaceAll versionToken [48, 46, 50, 46, 48] versionToken).length
        (goReplaceAll versionToken [48, 46, 50, 46, 48] versionToken) ∈
      ociTarball "/d".toList [48, 46, 50, 46, 48]
        [⟨"/d".toList, ".".toList, WalkKind.directory⟩,
          ⟨"/d/f".toList, "f".toList, WalkKind.regularFile versionToken⟩] ∧
    (¬ versionToken <:+: versionToken →
      goReplaceAll versionToken [48, 46, 50, 46, 48] versionToken = versionToken) :=
  oci_file_entry_rewrite "/d".toList [48, 46, 50, 46, 48]
    [⟨"/d".toList, ".".toList, WalkKind.directory⟩,
      ⟨"/d/f".toList, "f".toList, WalkKind.regularFile versionToken⟩]
    "/d/f".toList "f".toList versionToken (by decide) (by decide)

/-- C7 counterexample: a walk over a tree with subdirectory `sub` and file
`sub/f`: the emitted archive holds no entry named `sub` — the lone entry
is the rewritten regular file — although the claim requires a header-only
entry for every subdirectory. -/
theorem oci_tar_no_directory_entry_counterexample :
    (ociTarball "/d".toList [48]
        [⟨"/d".toList, ".".toList, WalkKind.directory⟩,
          ⟨"/d/sub".toList, "sub".toList, WalkKind.directory⟩,
          ⟨"/d/sub/f".toList, "sub/f".toList, WalkKind.regularFile [97]⟩]).all
        (fun e => e.name != "sub".toList) = true ∧
    (ociTarball "/d".toList [48]
        [⟨"/d".toList, ".".toList, WalkKind.directory⟩,
          ⟨"/d/sub".toList, "sub".toList, WalkKind.directory⟩,
          ⟨"/d/sub/f".toList, "sub/f".toList, WalkKind.regularFile [97]⟩]).length = 1 :=
  ⟨by decide, by decide⟩

/-- Keeps exactly the walk entries that are regular files. -/
def isRegularWalkEntry (e : WalkEntry) : Bool :=
  match e.kind with
  | WalkKind.regularFile _ => true
  | _ => false

/-- C7 (amended): only regular files produce archive entries.  A directory
walk entry emits nothing (its header is never written), and dropping every
non-regular entry from the walk leaves the emitted archive unchanged. -/
theorem oci_tar_only_regular_entries (dirPath : List Char) (version : List Nat)
    (walk : List WalkEntry) (p rel : List Char) :
    walkStep dirPath version ⟨p, rel, WalkKind.directory⟩ = [] ∧
    ociTarball dirPath version (walk.filter isRegularWalkEntry) =
      ociTarball dirPath version walk := by
  constructor
  · unfold walkStep
    split <;> rfl
  · induction walk with
    | nil => rfl
    | cons e rest ih =>
      cases he : isRegularWalkEntry e with
      | true =>
        rw [show (e :: rest).filter isRegularWalkEntry =
            e :: rest.filter isRegularWalkEntry from by simp [List.filter_cons, he]]
        show (e :: rest.filter isRegularWalkEntry).flatMap (walkStep dirPath version) =
          (e :: rest).flatMap (walkStep dirPath version)
        rw [List.flatMap_cons, List.flatMap_cons]
        exact congrArg (walkStep dirPath version e ++ ·) ih
      | false =>
        have hstep : walkStep dirPath version e = [] := by
          unfold isRegularWalkEntry at he
          unfold walkStep
          split
          · rfl
          · cases hk : e.kind with
            | regularFile c => rw [hk] at he; simp at he
            | directory => rfl
            | other => rfl
        rw [show (e :: rest).filter isRegularWalkEntry =
            rest.filter isRegularWalkEntry from by simp [List.filter_cons, he]]
        show (rest.filter isRegularWalkEntry).flatMap (walkStep dirPath version) =
          (e :: rest).flatMap (walkStep dirPath version)
        rw [List.flatMap_cons, hstep, List.nil_append]
        exact ih

/-! ## The oci push phase (part_001 lines 211–229) and the registry
reference grammar (§6 registry collaborator, go-containerregistry `name`) -/

/-- Splits a string at its first slash; no value when it has none. -/
def splitFirstSlash : List Char → Option (List Char × List Char)
  | [] => none
  | c :: cs =>
    if c = '/' then some ([], cs)
    else
      match splitFirstSlash cs with
      | some (a, b) => some (c :: a, b)
      | none => none

/-- A word character of the Go regexp class `\w`. -/
def isWordChar (c : Char) : Bool :=
  c.isAlpha || c.isDigit || c = '_'

/-- Models the tag grammar of go-containerregistry (`[\w][\w.-]{0,127}`). -/
def validTagChars : List Char → Bool
  | [] => false
  | c :: cs =>
    isWordChar c && cs.all (fun x => isWordChar x || x = '.' || x = '-') &&
      (c :: cs).length ≤ 128

/-- Models the repository-path grammar of go-containerregistry: non-empty,
lower-case alphanumerics with `.`, `_`, `-` and `/` separators — in
particular no colon and no upper-case letters. -/
def repoPathOK (p : List Char) : Bool :=
  p ≠ [] && p.all fun c =>
    c.isLower || c.isDigit || c = '.' || c = '_' || c = '-' || c = '/'

/-- Is the first path component a registry host?  Models
go-containerregistry's detection: it contains a dot or a colon, or is the
literal `localhost`. -/
def looksLikeHost (h : List Char) : Bool :=
  h.contains '.' || h.contains ':' || h = "localhost".toList

/-- Models the repository part of a reference: an optional registry host
before the first slash, followed by a valid repository path. -/
def validRepoRef (base : List Char) : Bool :=
  match splitFirstSlash base with
  | some (head, rest) => if looksLikeHost head then repoPathOK rest else repoPathOK base
  | none => repoPathOK base

/-- Models go-containerregistry `name.NewTag` (§6 registry collaborator)
on colon-carrying references: split at the LAST colon into repository part
and tag, and accept exactly when the tag matches the tag grammar and the
repository part matches the repository grammar.  (Digest references with
`@` never occur in this tool and are not modelled; a string with no colon
is rejected, which the call site below never produces.) -/
def newTagModel (s : List Char) : Option (List Char × List Char) :=
  match splitLastColon s with
  | none => none
  | some (base, tag) =>
    if validTagChars tag && validRepoRef base then some (base, tag) else none

/-- Errors of the push phase of `NewOciCmd` (part_001 lines 211–229). -/
inductive OciPushErr where
  | pushImageFailed
  | badVersionRef
  | pushVersionFailed
deriving DecidableEq

/-- Embeds the push phase of `NewOciCmd` (part_001 lines 211–229):
push the image under the caller's reference string; then build the
version reference as `strings.TrimSuffix(ref.String(), ":latest") + ":" +
latestVersion`, parse it with `name.NewTag`, and push under it.  `pushOk`
is the §6 oracle for `crane.Push` success per reference string.  Returns
the references pushed, in order, and the error that stopped the phase, if
any. -/
def ociPushPhase (refStr version : List Char) (pushOk : List Char → Bool) :
    List (List Char) × Option OciPushErr :=
  if pushOk refStr = false then ([refStr], some OciPushErr.pushImageFailed)
  else
    let versionRefStr := goTrimTrailing ":latest".toList refStr ++ [':'] ++ version
    match newTagModel versionRefStr with
    | none => ([refStr], some OciPushErr.badVersionRef)
    | some _ =>
      if pushOk versionRefStr = false then
        ([refStr, versionRefStr], some OciPushErr.pushVersionFailed)
      else ([refStr, versionRefStr], none)

/-- C4 counterexample: for the caller-supplied reference
`example.com/repo:v1` (a tag other than `latest`) and resolved version
`0.2.0`, the phase pushes only once and fails even though every push
succeeds: the constructed second reference appends `:0.2.0` to the FULL
original reference, yielding `example.com/repo:v1:0.2.0`, which is not
the same-repository version reference `example.com/repo:0.2.0` and does
not parse as a tag. -/
theorem oci_push_nonlatest_counterexample :
    (ociPushPhase "example.com/repo:v1".toList "0.2.0".toList fun x => true).1 =
      ["example.com/repo:v1".toList] ∧
    (ociPushPhase "example.com/repo:v1".toList "0.2.0".toList fun x => true).2 =
      some OciPushErr.badVersionRef ∧
    goTrimTrailing ":latest".toList "example.com/repo:v1".toList ++ [':'] ++
        "0.2.0".toList ≠
      "example.com/repo".toList ++ [':'] ++ "0.2.0".toList :=
  ⟨by decide, by decide, by decide⟩

theorem validTagChars_no_colon (t : List Char) (h : validTagChars t = true) :
    ':' ∉ t := by
  cases t with
  | nil => simp
  | cons c cs =>
    unfold validTagChars at h
    simp only [Bool.and_eq_true, List.all_eq_true] at h
    intro hm
    rcases List.mem_cons.mp hm with hc | hc
    · rw [← hc] at h
      exact absurd h.1.1 (by decide)
    · have := h.1.2 ':' hc
      exact absurd this (by decide)

theorem goTrimTrailing_append (suf l : List Char) :
    goTrimTrailing suf (l ++ suf) = l := by
  unfold goTrimTrailing
  have hs : suf.isSuffixOf (l ++ suf) = true := by
    rw [List.isSuffixOf_iff_suffix]
    exact List.suffix_append l suf
  rw [if_pos hs]
  have hlen : (l ++ suf).length - suf.length = l.length := by
    simp
  rw [hlen, List.take_left]

/-- C4 (amended): when the caller's reference string is
`<repo>:latest` (the only form the construction supports) and the
resolved version is a valid tag for the valid repository `<repo>`, the
image is pushed exactly twice — first under the original reference, then
under `<repo>:<version>` — and the phase succeeds exactly when both
pushes succeed; a failed first push stops the phase after one push, and a
failed second push stops it after both. -/
theorem oci_push_latest_two_pushes (repo version : List Char)
    (pushOk : List Char → Bool)
    (hrepo : validRepoRef repo = true) (hver : validTagChars version = true) :
    (pushOk (repo ++ ":latest".toList) = true →
      pushOk (repo ++ [':'] ++ version) = true →
      ociPushPhase (repo ++ ":latest".toList) version pushOk =
        ([repo ++ ":latest".toList, repo ++ [':'] ++ version], none)) ∧
    (pushOk (repo ++ ":latest".toList) = false →
      ociPushPhase (repo ++ ":latest".toList) version pushOk =
        ([repo ++ ":latest".toList], some OciPushErr.pushImageFailed)) ∧
    (pushOk (repo ++ ":latest".toList) = true →
      pushOk (repo ++ [':'] ++ version) = false →
      ociPushPhase (repo ++ ":latest".toList) version pushOk =
        ([repo ++ ":latest".toList, repo ++ [':'] ++ version],
          some OciPushErr.pushVersionFailed)) := by
  have htrim : goTrimTrailing ":latest".toList (repo ++ ":latest".toList) = repo :=
    goTrimTrailing_append ":latest".toList repo
  have hshape : repo ++ [':'] ++ version = repo ++ ':' :: version := by simp
  have hsplit : splitLastColon (repo ++ [':'] ++ version) = some (repo, version) := by
    rw [hshape]
    exact splitLastColon_append repo version (validTagChars_no_colon version hver)
  have hparse : newTagModel
      (goTrimTrailing ":latest".toList (repo ++ ":latest".toList) ++ [':'] ++ version) =
      some (repo, version) := by
    rw [htrim]
    unfold newTagModel
    rw [hsplit]
    simp [hver, hrepo]
  refine ⟨?_, ?_, ?_⟩
  · intro h1 h2
    unfold ociPushPhase
    rw [if_neg (fun hc => Bool.noConfusion (h1.symm.trans hc))]
    simp only [hparse]
    rw [htrim]
    rw [if_neg (fun hc => Bool.noConfusion (h2.symm.trans hc))]
  · intro h1
    unfold ociPushPhase
    rw [if_pos h1]
  · intro h1 h2
    unfold ociPushPhase
    rw [if_neg (fun hc => Bool.noConfusion (h1.symm.trans hc))]
    simp only [hparse]
    rw [htrim]
    rw [if_pos h2]

theorem oci_push_latest_two_pushes_witness :
    (((fun x => true) : List Char → Bool) ("localhost:5000/test/image".toList ++
        ":latest".toList) = true →
      ((fun x => true) : List Char → Bool) ("localhost:5000/test/image".toList ++
        [':'] ++ "0.2.0".toList) = true →
      ociPushPhase ("localhost:5000/test/image".toList ++ ":latest".toList)
          "0.2.0".toList (fun x => true) =
        (["localhost:5000/test/image".toList ++ ":latest".toList,
          "localhost:5000/test/image".toList ++ [':'] ++ "0.2.0".toList], none)) ∧
    (((fun x => true) : List Char → Bool) ("localhost:5000/test/image".toList ++
        ":latest".toList) = false →
      ociPushPhase ("localhost:5000/test/image".toList ++ ":latest".toList)
          "0.2.0".toList (fun x => true) =
        (["localhost:5000/test/image".toList ++ ":latest".toList],
          some OciPushErr.pushImageFailed)) ∧
    (((fun x => true) : List Char → Bool) ("localhost:5000/test/image".toList ++
        ":latest".toList) = true →
      ((fun x => true) : List Char → Bool) ("localhost:5000/test/image".toList ++
        [':'] ++ "0.2.0".toList) = false →
      ociPushPhase ("localhost:5000/test/image".toList ++ ":latest".toList)
          "0.2.0".toList (fun x => true) =
        (["localhost:5000/test/image".toList ++ ":latest".toList,
          "localhost:5000/test/image".toList ++ [':'] ++ "0.2.0".toList],
          some OciPushErr.pushVersionFailed)) :=
  oci_push_latest_two_pushes "localhost:5000/test/image".toList "0.2.0".toList
    (fun x => true) (by decide) (by decide)

/-! ## The version command (§4.4 VersionLookup; implementation not under
src/, only its test src/cmd/version_test.go) -/

/-- The failure of §4.4: the current commit carries no version tag of the
requested line; surfaced as "current HEAD is not tagged with a version". -/
inductive VersionLookupErr where
  | headNotTagged
deriving DecidableEq

/-- Modelled from the spec: the implementation of `NewVersionCmd`
(§4.4 VersionLookup) is not among the files under src/ — only its test,
src/cmd/version_test.go, is.  Following §4.4: collect the tags pointing
exactly at the current commit (the `tagsAtHead` argument), filter them to
those matching `<line>/v*`, fail with `HeadNotTagged` when none matches,
and otherwise report the matching tag's version string — the part after
`<line>/v`. -/
def versionAtHead (line : List Char) (tagsAtHead : List (List Char)) :
    Except VersionLookupErr (List Char) :=
  match tagsAtHead.filter (fun t => (line ++ "/v".toList).isPrefixOf t) with
  | [] => Except.error VersionLookupErr.headNotTagged
  | t :: _ => Except.ok (goTrimLeading (line ++ "/v".toList) t)

/-- C8: `versionAtHead` fails with `HeadNotTagged` exactly when no tag
pointing at the current commit matches `<line>/v*` (a tag of the line on
an ancestor commit is not among the tags pointing at the commit and so
does not help); and when the line's only matching tag at the commit is
`<line>/vA.B.C`, it succeeds and reports exactly `A.B.C`. -/
theorem versionAtHead_spec (line s : List Char) (tags : List (List Char)) :
    (versionAtHead line tags = Except.error VersionLookupErr.headNotTagged ↔
      tags.filter (fun t => (line ++ "/v".toList).isPrefixOf t) = []) ∧
    (tags.filter (fun t => (line ++ "/v".toList).isPrefixOf t) =
        [line ++ "/v".toList ++ s] →
      versionAtHead line tags = Except.ok s) := by
  have hlem : goTrimLeading (line ++ "/v".toList) (line ++ "/v".toList ++ s) = s := by
    have hc : (line ++ "/v".toList).isPrefixOf (line ++ "/v".toList ++ s) = true := by
      rw [ List.isPrefixOf_iff_prefix]
      exact ⟨s, rfl⟩
    rw [goTrimLeading, if_pos hc, List.drop_left]
  constructor
  · unfold versionAtHead
    cases hf : tags.filter (fun t => (line ++ "/v".toList).isPrefixOf t) with
    | nil => simp
    | cons t rest => simp
  · intro h
    unfold versionAtHead
    rw [h]
    show Except.ok (goTrimLeading (line ++ "/v".toList) (line ++ "/v".toList ++ s)) = _
    rw [hlem]

theorem versionAtHead_spec_witness :
    (versionAtHead "a".toList ["x".toList, "a/v1.2.3".toList] =
        Except.error VersionLookupErr.headNotTagged ↔
      (["x".toList, "a/v1.2.3".toList]).filter
        (fun t => ("a".toList ++ "/v".toList).isPrefixOf t) = []) ∧
    ((["x".toList, "a/v1.2.3".toList]).filter
        (fun t => ("a".toList ++ "/v".toList).isPrefixOf t) =
        ["a".toList ++ "/v".toList ++ "1.2.3".toList] →
      versionAtHead "a".toList ["x".toList, "a/v1.2.3".toList] =
        Except.ok "1.2.3".toList) :=
  versionAtHead_spec "a".toList "1.2.3".toList ["x".toList, "a/v1.2.3".toList]

end ReleaseTool
